import Mathlib

/-
  Verification of the text-preprocessing pipeline core
  (src/preprocessing/pipeline.py and src/preprocessing/steps.py).

  The Python `Pipeline` object holds a mutable list `self.steps`; Python
  lists are heap objects shared by reference.  We model the pure execution
  semantics of `Pipeline.__call__` on a list of steps directly, and model
  the aliasing behaviour of `__init__` / `__or__` / `add` with an explicit
  heap of list objects addressed by natural numbers.
-/

namespace Preproc

/-- Embedding of `Pipeline.__call__` (pipeline.py lines 54-57) for steps
that do not raise: `value = input; for step in self.steps: value = step(value);
return value` is a left fold over the step list. -/
def call {α : Type} (steps : List (α → α)) (input : α) : α :=
  steps.foldl (fun value step => step value) input

/-- Stated from the claim: the nested application `fn(...(f2(f1(x)))...)`,
built by applying the last step outermost.  Used only to compare with
`call`. -/
def specNestedApply {α : Type} (steps : List (α → α)) (x : α) : α :=
  steps.reverse.foldr (fun f v => f v) x

/-- Embedding of `Pipeline.__call__` for steps that may raise a Python
exception: a raising step is a function into `Except`, and the loop
stops at the first raised error, which propagates unchanged. -/
def callE {α ε : Type} : List (α → Except ε α) → α → Except ε α
  | [], value => .ok value
  | step :: rest, value =>
    match step value with
    | .ok v => callE rest v
    | .error e => .error e

/-- Instrumented version of `callE` that also returns how many steps were
actually executed (entered), to express the fail-fast property. -/
def callCount {α ε : Type} : List (α → Except ε α) → α → Except ε α × Nat
  | [], value => (.ok value, 0)
  | step :: rest, value =>
    match step value with
    | .ok v =>
      let r := callCount rest v
      (r.1, r.2 + 1)
    | .error e => (.error e, 1)

theorem call_nil {α : Type} (x : α) : call ([] : List (α → α)) x = x := rfl

theorem call_append {α : Type} (l₁ l₂ : List (α → α)) (x : α) :
    call (l₁ ++ l₂) x = call l₂ (call l₁ x) := by
  simp [call, List.foldl_append]

theorem call_snoc {α : Type} (l : List (α → α)) (f : α → α) (x : α) :
    call (l ++ [f]) x = f (call l x) := by
  simp [call_append, call]

/-- C1: invoking `Pipeline([f1, ..., fn])` on `x` returns
`fn(...(f2(f1(x)))...)`: `__call__` threads the running value through the
steps in stored order; in particular `Pipeline([f, g])(x) = g (f x)`. -/
theorem C1_sequential_composition {α : Type} (steps : List (α → α))
    (f g : α → α) (x : α) :
    call steps x = specNestedApply steps x ∧ call [f, g] x = g (f x) := by
  constructor
  · simp [call, specNestedApply, List.foldr_reverse]
  · rfl

/-- C2: a Pipeline constructed with an empty step list returns its input
unchanged: the empty pipeline is the identity transform. -/
theorem C2_empty_pipeline_identity {α : Type} (x : α) :
    call ([] : List (α → α)) x = x := rfl

theorem callCount_fst {α ε : Type} (steps : List (α → Except ε α)) (x : α) :
    (callCount steps x).1 = callE steps x := by
  induction steps generalizing x with
  | nil => rfl
  | cons s rest ih =>
    simp only [callCount, callE]
    cases s x with
    | ok v => simpa using ih v
    | error e => rfl

theorem callE_append {α ε : Type} (l₁ l₂ : List (α → Except ε α)) (x v : α)
    (h : callE l₁ x = .ok v) : callE (l₁ ++ l₂) x = callE l₂ v := by
  induction l₁ generalizing x with
  | nil =>
    simp only [callE] at h
    cases h
    rfl
  | cons s rest ih =>
    simp only [callE] at h ⊢
    cases hs : s x with
    | ok w =>
      rw [hs] at h
      exact ih w h
    | error e => rw [hs] at h; exact absurd h (by simp)

theorem callCount_of_ok {α ε : Type} (l : List (α → Except ε α)) (x v : α)
    (h : callE l x = .ok v) : (callCount l x).2 = l.length := by
  induction l generalizing x with
  | nil => rfl
  | cons s rest ih =>
    simp only [callE] at h
    simp only [callCount]
    cases hs : s x with
    | ok w =>
      rw [hs] at h
      simp [ih w h]
    | error e => rw [hs] at h; exact absurd h (by simp)

/-- C4: if the steps before position `k` succeed, turning `x` into `v`, and
the step at position `k` raises `e` on `v`, then invoking the pipeline
returns exactly that error (propagated unmodified, no partial result), and
exactly `k + 1` steps are executed — none after the failing one. -/
theorem C4_fail_fast {α ε : Type} (pre post : List (α → Except ε α))
    (f : α → Except ε α) (x v : α) (e : ε)
    (hpre : callE pre x = .ok v) (hf : f v = .error e) :
    callE (pre ++ f :: post) x = .error e ∧
    (callCount (pre ++ f :: post) x).2 = pre.length + 1 := by
  constructor
  · rw [callE_append pre (f :: post) x v hpre]
    simp [callE, hf]
  · induction pre generalizing x with
    | nil =>
      simp only [callE] at hpre
      cases hpre
      simp [callCount, hf]
    | cons s rest ih =>
      simp only [callE] at hpre
      simp only [callCount]
      cases hs : s x with
      | ok w =>
        rw [hs] at hpre
        simp [ih w hpre]
      | error e' => rw [hs] at hpre; exact absurd hpre (by simp)

/-- Witness for C4 at a concrete pipeline: one succeeding step, then a
failing step, then one further step; the error comes out and only two
steps run. -/
theorem C4_fail_fast_witness :
    callE ([fun n => Except.ok (n + 1)] : List (Nat → Except Nat Nat)) 0 = .ok 1 ∧
    (fun _ : Nat => (Except.error 7 : Except Nat Nat)) 1 = .error 7 ∧
    (callE (([fun n => Except.ok (n + 1)] : List (Nat → Except Nat Nat)) ++
        (fun _ : Nat => (Except.error 7 : Except Nat Nat)) ::
        [fun n : Nat => Except.ok (n * 2)]) 0 = .error 7 ∧
      (callCount (([fun n => Except.ok (n + 1)] : List (Nat → Except Nat Nat)) ++
        (fun _ : Nat => (Except.error 7 : Except Nat Nat)) ::
        [fun n : Nat => Except.ok (n * 2)]) 0).2 =
        ([fun n => Except.ok (n + 1)] : List (Nat → Except Nat Nat)).length + 1) :=
  ⟨rfl, rfl,
    C4_fail_fast ([fun n => Except.ok (n + 1)] : List (Nat → Except Nat Nat))
      [fun n : Nat => Except.ok (n * 2)]
      (fun _ : Nat => (Except.error 7 : Except Nat Nat)) 0 1 7 rfl rfl⟩

/-
  Heap model for the aliasing behaviour of `Pipeline.__init__`, `__or__`
  and `add`.  Python list objects live on a heap; a heap is a list of list
  objects, addressed by position.  Reading an unallocated address defaults
  to `[]`; the theorems that depend on an address being allocated carry
  the hypothesis that it is in range.
-/

/-- Heap of Python list objects: address `a` holds the list `h.getD a []`. -/
abbrev Heap (σ : Type) : Type := List (List σ)

/-- Read the list object stored at address `a`. -/
def getL {σ : Type} (h : Heap σ) (a : Nat) : List σ :=
  h.getD a []

/-- Allocate a fresh list object holding `l`; returns its (fresh) address
and the grown heap. -/
def alloc {σ : Type} (h : Heap σ) (l : List σ) : Nat × Heap σ :=
  (h.length, h ++ [l])

/-- A `Pipeline` object, represented by the address of its `steps` list:
`__init__` (pipeline.py line 38) does `self.steps = steps`, storing the
caller's list by reference, so a pipeline is exactly a reference to a list
object on the heap. -/
structure Pipeline where
  steps : Nat
deriving DecidableEq

/-- Embedding of `Pipeline.__init__` (pipeline.py lines 37-38): the new
pipeline aliases the caller's list; no copy is made. -/
def init (stepsAddr : Nat) : Pipeline :=
  ⟨stepsAddr⟩

/-- Embedding of `Pipeline.__or__` (pipeline.py lines 59-76).  The operand
is either another Pipeline (`Sum.inl`) or a bare callable step
(`Sum.inr`).  `self.steps + other.steps` and `self.steps + [other]` build
a fresh list object, which the returned `Pipeline(...)` then references. -/
def orOp {σ : Type} (h : Heap σ) (p : Pipeline) (other : Pipeline ⊕ σ) :
    Pipeline × Heap σ :=
  match other with
  | .inl q =>
    let r := alloc h (getL h p.steps ++ getL h q.steps)
    (init r.1, r.2)
  | .inr s =>
    let r := alloc h (getL h p.steps ++ [s])
    (init r.1, r.2)

/-- Embedding of `Pipeline.add` (pipeline.py lines 78-93):
`self.steps.append(step)` mutates the referenced list object in place, and
`return self` hands back the very same pipeline. -/
def add {σ : Type} (h : Heap σ) (p : Pipeline) (s : σ) : Pipeline × Heap σ :=
  (p, h.set p.steps (getL h p.steps ++ [s]))

theorem getL_append_lt {σ : Type} (h : Heap σ) (l : List σ) (a : Nat)
    (ha : a < h.length) : getL (h ++ [l]) a = getL h a :=
  List.getD_append h [l] [] a ha

theorem getL_append_self {σ : Type} (h : Heap σ) (l : List σ) :
    getL (h ++ [l]) h.length = l := by
  show (h ++ [l]).getD h.length [] = l
  rw [List.getD_append_right h [l] [] h.length le_rfl]
  simp

theorem getL_set_self {σ : Type} (h : Heap σ) (a : Nat) (l : List σ)
    (ha : a < h.length) : getL (h.set a l) a = l := by
  induction h generalizing a with
  | nil => simp at ha
  | cons x rest ih =>
    cases a with
    | zero => simp [getL]
    | succ a =>
      simp only [List.length_cons, Nat.succ_lt_succ_iff] at ha
      simpa [getL, List.set, List.getD] using ih a ha

theorem getL_set_ne {σ : Type} (h : Heap σ) (a b : Nat) (l : List σ)
    (hab : a ≠ b) : getL (h.set a l) b = getL h b := by
  induction h generalizing a b with
  | nil => simp [getL]
  | cons x rest ih =>
    cases a with
    | zero =>
      cases b with
      | zero => exact absurd rfl hab
      | succ b => simp [getL, List.set, List.getD]
    | succ a =>
      cases b with
      | zero => simp [getL, List.set, List.getD]
      | succ b =>
        simpa [getL, List.set, List.getD] using
          ih a b (fun hc => hab (by omega))

/-- C3: combining with another Pipeline yields a pipeline whose steps list
is the concatenation of the two operands' step lists in order; combining
with a single callable yields the operand's steps with the callable
appended as the final element. -/
theorem C3_combine_step_sequences {σ : Type} (h : Heap σ) (p q : Pipeline)
    (s : σ) :
    getL (orOp h p (.inl q)).2 (orOp h p (.inl q)).1.steps =
      getL h p.steps ++ getL h q.steps ∧
    getL (orOp h p (.inr s)).2 (orOp h p (.inr s)).1.steps =
      getL h p.steps ++ [s] := by
  constructor
  · simpa [orOp, alloc, init] using
      getL_append_self h (getL h p.steps ++ getL h q.steps)
  · simpa [orOp, alloc, init] using
      getL_append_self h (getL h p.steps ++ [s])

/-- C5: combining pipelines `A` and `B` leaves both operands' step lists
(and hence their input-output behaviour) unchanged, and the result is a
fresh Pipeline referencing a freshly allocated list, distinct from both
operands. -/
theorem C5_combine_no_mutation {α : Type} (h : Heap (α → α)) (A B : Pipeline)
    (hA : A.steps < h.length) (hB : B.steps < h.length) :
    getL (orOp h A (.inl B)).2 A.steps = getL h A.steps ∧
    getL (orOp h A (.inl B)).2 B.steps = getL h B.steps ∧
    (orOp h A (.inl B)).1.steps ≠ A.steps ∧
    (orOp h A (.inl B)).1.steps ≠ B.steps ∧
    (∀ x : α, call (getL (orOp h A (.inl B)).2 A.steps) x =
      call (getL h A.steps) x) ∧
    (∀ x : α, call (getL (orOp h A (.inl B)).2 B.steps) x =
      call (getL h B.steps) x) := by
  have hA' : getL (orOp h A (.inl B)).2 A.steps = getL h A.steps := by
    simpa [orOp, alloc, init] using
      getL_append_lt h (getL h A.steps ++ getL h B.steps) A.steps hA
  have hB' : getL (orOp h A (.inl B)).2 B.steps = getL h B.steps := by
    simpa [orOp, alloc, init] using
      getL_append_lt h (getL h A.steps ++ getL h B.steps) B.steps hB
  refine ⟨hA', hB', ?_, ?_, fun x => by rw [hA'], fun x => by rw [hB']⟩
  · simp only [orOp, alloc, init]
    omega
  · simp only [orOp, alloc, init]
    omega

/-- Witness for C5 on a concrete two-pipeline heap. -/
theorem C5_combine_no_mutation_witness :
    ((init 0).steps < ([[fun n => n + 1], [fun n => n * 2]] :
        Heap (Nat → Nat)).length ∧
      (init 1).steps < ([[fun n => n + 1], [fun n => n * 2]] :
        Heap (Nat → Nat)).length) ∧
    (getL (orOp ([[fun n => n + 1], [fun n => n * 2]] : Heap (Nat → Nat))
        (init 0) (.inl (init 1))).2 (init 0).steps =
      getL ([[fun n => n + 1], [fun n => n * 2]] : Heap (Nat → Nat))
        (init 0).steps ∧
    getL (orOp ([[fun n => n + 1], [fun n => n * 2]] : Heap (Nat → Nat))
        (init 0) (.inl (init 1))).2 (init 1).steps =
      getL ([[fun n => n + 1], [fun n => n * 2]] : Heap (Nat → Nat))
        (init 1).steps ∧
    (orOp ([[fun n => n + 1], [fun n => n * 2]] : Heap (Nat → Nat))
        (init 0) (.inl (init 1))).1.steps ≠ (init 0).steps ∧
    (orOp ([[fun n => n + 1], [fun n => n * 2]] : Heap (Nat → Nat))
        (init 0) (.inl (init 1))).1.steps ≠ (init 1).steps ∧
    (∀ x : Nat, call (getL (orOp ([[fun n => n + 1], [fun n => n * 2]] :
          Heap (Nat → Nat)) (init 0) (.inl (init 1))).2 (init 0).steps) x =
      call (getL ([[fun n => n + 1], [fun n => n * 2]] : Heap (Nat → Nat))
        (init 0).steps) x) ∧
    (∀ x : Nat, call (getL (orOp ([[fun n => n + 1], [fun n => n * 2]] :
          Heap (Nat → Nat)) (init 0) (.inl (init 1))).2 (init 1).steps) x =
      call (getL ([[fun n => n + 1], [fun n => n * 2]] : Heap (Nat → Nat))
        (init 1).steps) x)) :=
  ⟨⟨by decide, by decide⟩,
    C5_combine_no_mutation ([[fun n => n + 1], [fun n => n * 2]] :
      Heap (Nat → Nat)) (init 0) (init 1) (by decide) (by decide)⟩

theorem orOp_inl_content {σ : Type} (h : Heap σ) (p q : Pipeline) :
    getL (orOp h p (.inl q)).2 (orOp h p (.inl q)).1.steps =
      getL h p.steps ++ getL h q.steps :=
  getL_append_self h (getL h p.steps ++ getL h q.steps)

theorem orOp_inr_content {σ : Type} (h : Heap σ) (p : Pipeline) (s : σ) :
    getL (orOp h p (.inr s)).2 (orOp h p (.inr s)).1.steps =
      getL h p.steps ++ [s] :=
  getL_append_self h (getL h p.steps ++ [s])

/-- C6 counterexample: the caller's list `[0]` lives at address 0, the
pipeline is constructed on it, and one `add` later the caller's list has
become `[0, 1]` — the constructor did not copy, so in-place mutation of
the pipeline retroactively altered the sequence passed in. -/
theorem C6_constructor_copies_counterexample :
    getL (add ([[0]] : Heap Nat) (init 0) 1).2 0 = [0, 1] ∧
    getL (add ([[0]] : Heap Nat) (init 0) 1).2 0 ≠ [0] := by
  constructor <;> decide

/-- C6 amended: `__init__` stores the caller's list by reference (line 38
is `self.steps = steps`, no copy), so appending a step via `add` mutates
the very sequence the caller passed in: afterwards the caller's list reads
`L ++ [s]`. -/
theorem C6_amended_add_mutates_caller_list {σ : Type} (h : Heap σ) (a : Nat)
    (s : σ) (ha : a < h.length) :
    getL (add h (init a) s).2 a = getL h a ++ [s] :=
  getL_set_self h a (getL h a ++ [s]) ha

/-- Witness for the amended C6 on a concrete heap. -/
theorem C6_amended_witness :
    (0 < ([[0]] : Heap Nat).length) ∧
    getL (add ([[0]] : Heap Nat) (init 0) 1).2 0 =
      getL ([[0]] : Heap Nat) 0 ++ [1] :=
  ⟨by decide, C6_amended_add_mutates_caller_list ([[0]] : Heap Nat) 0 1 (by decide)⟩

/-- Conclusion of the associativity claim: combining `A` with `B` and then
with `other` (a Pipeline or a bare step) yields the same effective step
sequence, and the same input-output behaviour, as combining `A` with the
combination of `B` and `other`. -/
def combineAssocHolds {α : Type} (h : Heap (α → α)) (A B : Pipeline)
    (other : Pipeline ⊕ (α → α)) : Prop :=
  getL (orOp (orOp h A (.inl B)).2 (orOp h A (.inl B)).1 other).2
      (orOp (orOp h A (.inl B)).2 (orOp h A (.inl B)).1 other).1.steps =
    getL (orOp (orOp h B other).2 A (.inl (orOp h B other).1)).2
      (orOp (orOp h B other).2 A (.inl (orOp h B other).1)).1.steps ∧
  ∀ x : α,
    call (getL (orOp (orOp h A (.inl B)).2 (orOp h A (.inl B)).1 other).2
      (orOp (orOp h A (.inl B)).2 (orOp h A (.inl B)).1 other).1.steps) x =
    call (getL (orOp (orOp h B other).2 A (.inl (orOp h B other).1)).2
      (orOp (orOp h B other).2 A (.inl (orOp h B other).1)).1.steps) x

theorem combineAssoc_aux {α : Type} (h : Heap (α → α)) (A B : Pipeline)
    (other : Pipeline ⊕ (α → α)) (hA : A.steps < h.length)
    (_hB : B.steps < h.length)
    (hother : ∀ q : Pipeline, other = .inl q → q.steps < h.length) :
    combineAssocHolds h A B other := by
  have key : getL (orOp (orOp h A (.inl B)).2 (orOp h A (.inl B)).1 other).2
      (orOp (orOp h A (.inl B)).2 (orOp h A (.inl B)).1 other).1.steps =
    getL (orOp (orOp h B other).2 A (.inl (orOp h B other).1)).2
      (orOp (orOp h B other).2 A (.inl (orOp h B other).1)).1.steps := by
    cases other with
    | inl C =>
      have hC : C.steps < h.length := hother C rfl
      have e1 : (orOp h A (.inl B)).2 =
          h ++ [getL h A.steps ++ getL h B.steps] := rfl
      have e2 : (orOp h B (.inl C)).2 =
          h ++ [getL h B.steps ++ getL h C.steps] := rfl
      rw [orOp_inl_content (orOp h A (.inl B)).2 (orOp h A (.inl B)).1 C,
        orOp_inl_content (orOp h B (.inl C)).2 A (orOp h B (.inl C)).1,
        orOp_inl_content h A B, orOp_inl_content h B C, e1, e2,
        getL_append_lt h _ C.steps hC, getL_append_lt h _ A.steps hA,
        List.append_assoc]
    | inr s =>
      have e2 : (orOp h B (.inr s)).2 = h ++ [getL h B.steps ++ [s]] := rfl
      rw [orOp_inr_content (orOp h A (.inl B)).2 (orOp h A (.inl B)).1 s,
        orOp_inl_content (orOp h B (.inr s)).2 A (orOp h B (.inr s)).1,
        orOp_inl_content h A B, orOp_inr_content h B s, e2,
        getL_append_lt h _ A.steps hA, List.append_assoc]
  exact ⟨key, fun x => by rw [key]⟩

/-- C7: for pipelines `A`, `B` and a third operand that is either a
Pipeline `C` or a bare callable `s` (the two shapes for which both
groupings are defined), `(A | B) | other` and `A | (B | other)` produce
pipelines with identical effective step sequences and identical output on
every input. -/
theorem C7_combine_associative {α : Type} (h : Heap (α → α)) (A B C : Pipeline)
    (s : α → α) (hA : A.steps < h.length) (hB : B.steps < h.length)
    (hC : C.steps < h.length) :
    combineAssocHolds h A B (.inl C) ∧ combineAssocHolds h A B (.inr s) :=
  ⟨combineAssoc_aux h A B (.inl C) hA hB
      (fun q hq => by cases hq; exact hC),
    combineAssoc_aux h A B (.inr s) hA hB (fun q hq => by cases hq)⟩

/-- Witness for C7 on a concrete three-pipeline heap. -/
theorem C7_combine_associative_witness :
    ((init 0).steps < ([[fun n => n + 1], [fun n => n * 2], [fun n => n + 3]] :
        Heap (Nat → Nat)).length ∧
      (init 1).steps < ([[fun n => n + 1], [fun n => n * 2], [fun n => n + 3]] :
        Heap (Nat → Nat)).length ∧
      (init 2).steps < ([[fun n => n + 1], [fun n => n * 2], [fun n => n + 3]] :
        Heap (Nat → Nat)).length) ∧
    (combineAssocHolds ([[fun n => n + 1], [fun n => n * 2], [fun n => n + 3]] :
        Heap (Nat → Nat)) (init 0) (init 1) (.inl (init 2)) ∧
      combineAssocHolds ([[fun n => n + 1], [fun n => n * 2], [fun n => n + 3]] :
        Heap (Nat → Nat)) (init 0) (init 1) (.inr fun n => n * 5)) :=
  ⟨⟨by decide, by decide, by decide⟩,
    C7_combine_associative
      ([[fun n => n + 1], [fun n => n * 2], [fun n => n + 3]] : Heap (Nat → Nat))
      (init 0) (init 1) (init 2) (fun n => n * 5)
      (by decide) (by decide) (by decide)⟩

/-- C8: `add` returns the very same Pipeline instance, mutated in place so
that its step sequence gains `s` at the end, and on any later invocation
the appended step executes last. -/
theorem C8_add_appends_and_returns_self {α : Type} (h : Heap (α → α))
    (p : Pipeline) (s : α → α) (hp : p.steps < h.length) :
    (add h p s).1 = p ∧
    getL (add h p s).2 p.steps = getL h p.steps ++ [s] ∧
    ∀ x : α, call (getL (add h p s).2 p.steps) x = s (call (getL h p.steps) x) := by
  have hcontent : getL (add h p s).2 p.steps = getL h p.steps ++ [s] :=
    getL_set_self h p.steps (getL h p.steps ++ [s]) hp
  exact ⟨rfl, hcontent, fun x => by rw [hcontent, call_snoc]⟩

/-- Witness for C8 on a concrete one-pipeline heap. -/
theorem C8_add_witness :
    ((init 0).steps < ([[fun n => n + 1]] : Heap (Nat → Nat)).length) ∧
    ((add ([[fun n => n + 1]] : Heap (Nat → Nat)) (init 0)
        (fun n => n * 2)).1 = init 0 ∧
      getL (add ([[fun n => n + 1]] : Heap (Nat → Nat)) (init 0)
          (fun n => n * 2)).2 (init 0).steps =
        getL ([[fun n => n + 1]] : Heap (Nat → Nat)) (init 0).steps ++
          [fun n => n * 2] ∧
      ∀ x : Nat, call (getL (add ([[fun n => n + 1]] : Heap (Nat → Nat))
          (init 0) (fun n => n * 2)).2 (init 0).steps) x =
        (fun n => n * 2)
          (call (getL ([[fun n => n + 1]] : Heap (Nat → Nat)) (init 0).steps) x)) :=
  ⟨by decide,
    C8_add_appends_and_returns_self ([[fun n => n + 1]] : Heap (Nat → Nat))
      (init 0) (fun n => n * 2) (by decide)⟩

/-
  Embedding of `remove_repeated_characters` (steps.py lines 164-214):
  `re.sub(r"(.)\1{2,}", r"\1\1", text)`, modelled over the list of
  characters of the string.
-/

/-- Length of the leading run of characters equal to `c`. -/
def runLen (c : Char) : List Char → Nat
  | [] => 0
  | d :: rest => if d = c then runLen c rest + 1 else 0

/-- Drop the leading run of characters equal to `c`. -/
def dropRun (c : Char) : List Char → List Char
  | [] => []
  | d :: rest => if d = c then dropRun c rest else d :: rest

theorem dropRun_length_le (c : Char) (l : List Char) :
    (dropRun c l).length ≤ l.length := by
  induction l with
  | nil => simp [dropRun]
  | cons d rest ih =>
    simp only [dropRun]
    by_cases hd : d = c
    · rw [if_pos hd]
      exact Nat.le_succ_of_le ih
    · rw [if_neg hd]

theorem mem_dropRun (c x : Char) (l : List Char) (hx : x ∈ dropRun c l) :
    x ∈ l := by
  induction l with
  | nil => exact hx
  | cons d rest ih =>
    simp only [dropRun] at hx
    by_cases hd : d = c
    · rw [if_pos hd] at hx
      exact List.mem_cons_of_mem d (ih hx)
    · rwa [if_neg hd] at hx

theorem dropRun_of_runLen_zero (c : Char) (l : List Char)
    (h : runLen c l = 0) : dropRun c l = l := by
  cases l with
  | nil => rfl
  | cons d rest =>
    simp only [runLen] at h
    by_cases hd : d = c
    · rw [if_pos hd] at h
      exact absurd h (by omega)
    · simp [dropRun, hd]

theorem runLen_succ (c : Char) (l : List Char) (m : Nat)
    (h : runLen c l = m + 1) : ∃ l', l = c :: l' ∧ runLen c l' = m := by
  cases l with
  | nil => simp [runLen] at h
  | cons d rest =>
    simp only [runLen] at h
    by_cases hd : d = c
    · rw [if_pos hd] at h
      exact ⟨rest, by rw [hd], by omega⟩
    · rw [if_neg hd] at h
      exact absurd h (by omega)

/-- Embedding of `remove_repeated_characters` (steps.py line 214):
`re.sub(r"(.)\1{2,}", r"\1\1", text)`.  The regex engine scans left to
right; at a position where `(.)` captures the current character — any
character except a newline, which `.` does not match — and the greedy
`\1{2,}` consumes at least two further copies, the match is the maximal
run of that character, which the replacement `\1\1` contracts to two
copies; otherwise the scan keeps the character and advances by one. -/
def remove_repeated_characters (l : List Char) : List Char :=
  match l with
  | [] => []
  | c :: rest =>
    if c ≠ '\n' ∧ 2 ≤ runLen c rest then
      c :: c :: remove_repeated_characters (dropRun c rest)
    else
      c :: remove_repeated_characters rest
termination_by l.length
decreasing_by
  · simp only [List.length_cons]
    exact Nat.lt_succ_of_le (dropRun_length_le _ _)
  · simp only [List.length_cons]
    exact Nat.lt_succ_self _

/-- Stated from the spec sentence "repeated-character normalization
reduces runs of 3+ identical characters to exactly 2": every maximal run
of any character is truncated to at most two occurrences, and runs of
length one or two are kept as they are. -/
def specCollapseRuns (l : List Char) : List Char :=
  match l with
  | [] => []
  | c :: rest =>
    if 1 ≤ runLen c rest then
      c :: c :: specCollapseRuns (dropRun c rest)
    else
      c :: specCollapseRuns rest
termination_by l.length
decreasing_by
  · simp only [List.length_cons]
    exact Nat.lt_succ_of_le (dropRun_length_le _ _)
  · simp only [List.length_cons]
    exact Nat.lt_succ_self _

/-- Stated from the amended claim: each maximal run of a non-newline
character is truncated to at most two occurrences — so runs of three or
more collapse to exactly two and runs of length one or two are kept —
while runs of the newline character are left entirely unchanged. -/
def specCollapseRunsNoNl (l : List Char) : List Char :=
  match l with
  | [] => []
  | c :: rest =>
    if c ≠ '\n' ∧ 1 ≤ runLen c rest then
      c :: c :: specCollapseRunsNoNl (dropRun c rest)
    else
      c :: specCollapseRunsNoNl rest
termination_by l.length
decreasing_by
  · simp only [List.length_cons]
    exact Nat.lt_succ_of_le (dropRun_length_le _ _)
  · simp only [List.length_cons]
    exact Nat.lt_succ_self _

theorem rrc_eq_specNoNl_aux :
    ∀ (n : Nat) (l : List Char), l.length ≤ n →
      remove_repeated_characters l = specCollapseRunsNoNl l := by
  intro n
  induction n with
  | zero =>
    intro l hl
    rw [List.length_eq_zero.mp (Nat.le_zero.mp hl)]
    simp [remove_repeated_characters, specCollapseRunsNoNl]
  | succ n ih =>
    intro l hl
    cases l with
    | nil => simp [remove_repeated_characters, specCollapseRunsNoNl]
    | cons c rest =>
      have hlen : rest.length ≤ n := by
        simpa [Nat.succ_le_succ_iff] using hl
      rw [remove_repeated_characters, specCollapseRunsNoNl]
      by_cases hcn : c = '\n'
      · have hcode : ¬(c ≠ '\n' ∧ 2 ≤ runLen c rest) := fun hand => hand.1 hcn
        have hspec : ¬(c ≠ '\n' ∧ 1 ≤ runLen c rest) := fun hand => hand.1 hcn
        rw [if_neg hcode, if_neg hspec, ih rest hlen]
      · by_cases h2 : 2 ≤ runLen c rest
        · rw [if_pos ⟨hcn, h2⟩, if_pos ⟨hcn, by omega⟩]
          have hdlen : (dropRun c rest).length ≤ n :=
            le_trans (dropRun_length_le c rest) hlen
          rw [ih (dropRun c rest) hdlen]
        · rw [if_neg (fun hand => h2 hand.2)]
          cases hr : runLen c rest with
          | zero =>
            have hspec : ¬(c ≠ '\n' ∧ 1 ≤ (0 : Nat)) :=
              fun hand => absurd hand.2 (by omega)
            rw [if_neg hspec, ih rest hlen]
          | succ m =>
            have hm0 : m = 0 := by omega
            subst hm0
            obtain ⟨rest', hrest', hr0⟩ := runLen_succ c rest 0 hr
            subst hrest'
            have hlen' : rest'.length ≤ n := by
              simp only [List.length_cons] at hlen
              omega
            rw [if_pos ⟨hcn, by omega⟩, remove_repeated_characters,
              if_neg (fun hand => by omega)]
            show c :: c :: remove_repeated_characters rest' =
              c :: c :: specCollapseRunsNoNl (dropRun c (c :: rest'))
            rw [show dropRun c (c :: rest') = dropRun c rest' by
                simp [dropRun],
              dropRun_of_runLen_zero c rest' hr0,
              ih rest' hlen']

/-- C9 counterexample: on the string of three newline characters the code
returns the input unchanged — `.` in a Python regex does not match a
newline, so the run of three newlines is not collapsed — while the claim
demands every run of three or more identical characters be reduced to
exactly two. -/
theorem C9_newline_counterexample :
    remove_repeated_characters ['\n', '\n', '\n'] = ['\n', '\n', '\n'] ∧
    specCollapseRuns ['\n', '\n', '\n'] = ['\n', '\n'] ∧
    remove_repeated_characters ['\n', '\n', '\n'] ≠
      specCollapseRuns ['\n', '\n', '\n'] := by
  refine ⟨?_, ?_, ?_⟩ <;>
    simp [remove_repeated_characters, specCollapseRuns, runLen, dropRun]

/-- C9 amended: on every string, `remove_repeated_characters` replaces
each maximal run of three or more occurrences of the same non-newline
character with exactly two occurrences and leaves runs of length one or
two unchanged, while runs of the newline character are left entirely
unchanged — `.` in the Python regex does not match a newline. -/
theorem C9_amended_collapses_runs (l : List Char) :
    remove_repeated_characters l = specCollapseRunsNoNl l :=
  rrc_eq_specNoNl_aux l.length l le_rfl

/-
  Embedding of `Pipeline.__repr__` (pipeline.py lines 95-106).  A Python
  callable placed in a pipeline may or may not expose a `__name__`
  attribute (plain functions do; `functools.partial` objects and class
  instances defining `__call__` do not), so a stored step is modelled as a
  function together with an optional declared name; reading a missing
  attribute raises `AttributeError`, while `__call__` never touches it.
-/

/-- Python exception raised by the representation code. -/
inductive PyExc where
  | attributeError
deriving DecidableEq

/-- A stored step as `__repr__` sees it: the underlying unary function
plus its optional `__name__` attribute. -/
structure PyCallable (α : Type) where
  fn : α → α
  nameAttr : Option String

/-- Reading `step.__name__`: raises `AttributeError` when the callable
carries no such attribute. -/
def getNameAttr {α : Type} (s : PyCallable α) : Except PyExc String :=
  match s.nameAttr with
  | some n => .ok n
  | none => .error .attributeError

/-- The step names in stored order, as the generator inside `__repr__`
produces them while `join` consumes it: the first missing `__name__`
raises. -/
def stepNames {α : Type} : List (PyCallable α) → Except PyExc (List String)
  | [] => .ok []
  | s :: rest =>
    match getNameAttr s with
    | .ok n =>
      match stepNames rest with
      | .ok ns => .ok (n :: ns)
      | .error e => .error e
    | .error e => .error e

/-- Python's `sep.join(items)`. -/
def joinSep (sep : String) : List String → String
  | [] => ""
  | [s] => s
  | s :: rest => s ++ sep ++ joinSep sep rest

/-- Embedding of `Pipeline.__repr__` (pipeline.py lines 104-106): each
step's `__name__` is indented by two spaces and the lines are joined by
an arrow separator inside `Pipeline(...)`; reading a step's `__name__`
can raise first. -/
def pyRepr {α : Type} (steps : List (PyCallable α)) : Except PyExc String :=
  match stepNames steps with
  | .ok ns =>
    .ok ("Pipeline(\n" ++
      joinSep "\n    ⬇\n" (ns.map (fun n => "  " ++ n)) ++ "\n)")
  | .error e => .error e

theorem stepNames_all_some {α : Type} (steps : List (PyCallable α))
    (h : ∀ s ∈ steps, (s.nameAttr).isSome) :
    stepNames steps = .ok (steps.map (fun s => (s.nameAttr).getD "")) := by
  induction steps with
  | nil => rfl
  | cons s rest ih =>
    obtain ⟨n, hn⟩ := Option.isSome_iff_exists.mp (h s (List.mem_cons_self s rest))
    have hrest := ih (fun t ht => h t (List.mem_cons_of_mem s ht))
    simp [stepNames, getNameAttr, hn, hrest]

/-- C10: Describe requires every stored step to expose a declared name:
when all steps carry a `__name__`, `__repr__` returns their names in
execution order, indented and joined by arrow separators; and there is a
pipeline — one whose only step is a callable with no `__name__`
attribute — on which `__repr__` raises `AttributeError` although invoking
that same pipeline succeeds. -/
theorem C10_repr_requires_names {α : Type} (steps : List (PyCallable α))
    (h : ∀ s ∈ steps, (s.nameAttr).isSome) :
    pyRepr steps = .ok ("Pipeline(\n" ++
      joinSep "\n    ⬇\n"
        (steps.map (fun s => "  " ++ (s.nameAttr).getD "")) ++ "\n)") ∧
    pyRepr [(⟨fun x => x, none⟩ : PyCallable α)] = .error .attributeError ∧
    ∀ x : α,
      call (List.map PyCallable.fn [(⟨fun x => x, none⟩ : PyCallable α)]) x = x := by
  refine ⟨?_, rfl, fun x => rfl⟩
  simp only [pyRepr, stepNames_all_some steps h, List.map_map]
  rfl

/-- Witness for C10 on a concrete one-step pipeline with a named step. -/
theorem C10_repr_witness :
    (∀ s ∈ [(⟨fun n => n + 1, some "inc"⟩ : PyCallable Nat)],
      (s.nameAttr).isSome) ∧
    (pyRepr [(⟨fun n => n + 1, some "inc"⟩ : PyCallable Nat)] =
        .ok ("Pipeline(\n" ++
          joinSep "\n    ⬇\n"
            ([(⟨fun n => n + 1, some "inc"⟩ : PyCallable Nat)].map
              (fun s => "  " ++ (s.nameAttr).getD "")) ++ "\n)") ∧
      pyRepr [(⟨fun x => x, none⟩ : PyCallable Nat)] = .error .attributeError ∧
      ∀ x : Nat,
        call (List.map PyCallable.fn
          [(⟨fun x => x, none⟩ : PyCallable Nat)]) x = x) :=
  ⟨by simp,
    C10_repr_requires_names [(⟨fun n => n + 1, some "inc"⟩ : PyCallable Nat)]
      (by simp)⟩

end Preproc
